import Mathlib

/-!
Shallow embedding of the Intcode virtual machine from andypymont/advent2019-rust.

The repository contains two independently written implementations of the same VM:
  * `src/intcode/mod.rs`   — value-semantics `Memory` (capacity 200) with
    `read_register`, `read_instruction`, an `Add<Instruction>` impl and a `run` loop;
  * `src/bin/02.rs`        — mutating `IntCodeProgram` (capacity 130) with
    `read_register`, `read_instruction`, `step`, `run`, plus parsing and the
    `part_one`/`part_two` entry points.

Machine integers (`usize`) are modelled as `Nat`; a Rust panic (out-of-bounds
array index) is modelled as `none` / a dedicated `panicked` outcome, and the
unbounded `loop`/`while` run loops are modelled with an explicit fuel argument.
Arithmetic on `usize` never overflows in the puzzle domain, and the source uses
plain `+`/`*` whose overflow would be a panic in debug builds; the claims under
study never involve values near `2 ^ 64`, so `Nat` addition/multiplication is
used directly.
-/

/-- Model of Rust's `str::trim()`: drop whitespace from both ends.  Strings
are modelled as their character lists (`String.data`); the program-text format
is ASCII, where Rust's Unicode-whitespace trim and `Char.isWhitespace` agree. -/
def trimChars (cs : List Char) : List Char :=
  ((cs.dropWhile Char.isWhitespace).reverse.dropWhile Char.isWhitespace).reverse

/-- Model of Rust's `str::split(',')`: split the character list at every comma;
always yields at least one (possibly empty) field, exactly like the Rust
iterator. -/
def splitComma : List Char → List (List Char)
  | [] => [[]]
  | c :: rest =>
    if c = ',' then [] :: splitComma rest
    else
      match splitComma rest with
      | [] => [[c]]
      | f :: fs => (c :: f) :: fs

/-- Model of Rust's `str::parse::<usize>()` (64-bit): an optional leading `'+'`,
then at least one ASCII digit, and the resulting value must fit in 64 bits.
Any other input (empty field, other characters, a `'-'` sign on the unsigned
type, overflow) is a parse error, modelled as `none`. -/
def parseUsize (cs : List Char) : Option Nat :=
  let digits := match cs with
    | '+' :: rest => rest
    | _ => cs
  if digits.isEmpty then none
  else if digits.all Char.isDigit then
    let n := digits.foldl (fun acc c => acc * 10 + (c.toNat - 48)) 0
    if n < 2 ^ 64 then some n else none
  else none

namespace Intcode

/-- Rust `Instruction` enum from `src/intcode/mod.rs`. -/
inductive Instruction where
  | Add : Nat → Nat → Nat → Instruction
  | Multiply : Nat → Nat → Nat → Instruction
  | Halt : Instruction
deriving DecidableEq

/-- Rust `const MEMORY_SIZE: usize = 200` from `src/intcode/mod.rs`. -/
abbrev MEMORY_SIZE : Nat := 200

/-- Rust `Memory(pub [usize; MEMORY_SIZE])`: a fixed array of 200 words.
Modelled as a `List Nat`; every theorem about it carries the length-200
invariant that the Rust array type enforces. -/
abbrev Memory := List Nat

/-- `Instruction::get_output_register` from `src/intcode/mod.rs`. -/
def Instruction.get_output_register : Instruction → Option Nat
  | .Add _ _ x => some x
  | .Multiply _ _ x => some x
  | .Halt => none

/-- `Memory::read_register` from `src/intcode/mod.rs`.  The source guard is
`pos > MEMORY_SIZE` (strict), so `pos = MEMORY_SIZE` falls through to the
array index `self.0[pos]`, which panics; the panic is modelled as `none`. -/
def Memory.read_register (mem : Memory) (pos : Nat) : Option Nat :=
  if pos > MEMORY_SIZE then some 0 else mem.get? pos

/-- `Instruction::get_output_value` from `src/intcode/mod.rs`; the two operand
reads go through `Memory::read_register` and can therefore panic. -/
def Instruction.get_output_value (i : Instruction) (mem : Memory) : Option Nat :=
  match i with
  | .Add a b _ => do
    let va ← Memory.read_register mem a
    let vb ← Memory.read_register mem b
    pure (va + vb)
  | .Multiply a b _ => do
    let va ← Memory.read_register mem a
    let vb ← Memory.read_register mem b
    pure (va * vb)
  | .Halt => pure 0

/-- `Instruction::get_register_change` from `src/intcode/mod.rs`. -/
def Instruction.get_register_change : Instruction → Nat
  | .Add _ _ _ => 4
  | .Multiply _ _ _ => 4
  | .Halt => 0

/-- `Memory::read_instruction` from `src/intcode/mod.rs`: opcode `1` decodes to
`Add`, `2` to `Multiply`, anything else to `Halt`; all four reads go through
`read_register` and can panic. -/
def Memory.read_instruction (mem : Memory) (pos : Nat) : Option Instruction := do
  match ← Memory.read_register mem pos with
  | 1 => do
    let a ← Memory.read_register mem (pos + 1)
    let b ← Memory.read_register mem (pos + 2)
    let c ← Memory.read_register mem (pos + 3)
    pure (.Add a b c)
  | 2 => do
    let a ← Memory.read_register mem (pos + 1)
    let b ← Memory.read_register mem (pos + 2)
    let c ← Memory.read_register mem (pos + 3)
    pure (.Multiply a b c)
  | _ => pure .Halt

/-- The `impl Add<Instruction> for Memory` from `src/intcode/mod.rs`:
`registers[register] = rhs.get_output_value(&self)`.  Rust evaluates the
right-hand side first (it can panic on an operand read), then the index write,
which panics when `register` is out of bounds of the 200-word array. -/
def Memory.add (mem : Memory) (rhs : Instruction) : Option Memory :=
  match rhs.get_output_register with
  | none => some mem
  | some register => do
    let value ← rhs.get_output_value mem
    if register < mem.length then pure (mem.set register value) else none

/-- Observable outcome of the unbounded `loop` in `Memory::run`, indexed by
fuel: the loop either breaks on a decoded `Halt`, panics on an out-of-bounds
array access, or has not finished within the given fuel. -/
inductive RunOutcome where
  | halted : Memory → RunOutcome
  | panicked : RunOutcome
  | outOfFuel : RunOutcome
deriving DecidableEq

/-- The `loop` body of `Memory::run` from `src/intcode/mod.rs`: decode at
`pos`, break on `Halt`, otherwise `pos += get_register_change` and
`mem += instruction`. -/
def Memory.runFuel : Nat → Memory → Nat → RunOutcome
  | 0, _, _ => .outOfFuel
  | fuel + 1, mem, pos =>
    match Memory.read_instruction mem pos with
    | none => .panicked
    | some .Halt => .halted mem
    | some ins =>
      match Memory.add mem ins with
      | none => .panicked
      | some mem2 => Memory.runFuel fuel mem2 (pos + ins.get_register_change)

/-- `Memory::run` from `src/intcode/mod.rs`: the loop starts at position 0 on a
copy of the memory. -/
def Memory.run (fuel : Nat) (mem : Memory) : RunOutcome :=
  Memory.runFuel fuel mem 0

/-- The `loop` of `Memory::run` instrumented with a count of the executed
(non-`Halt`) instructions; the source loop itself keeps no counter, the count
is a ghost observation of its iterations. -/
def Memory.runFuelCount : Nat → Memory → Nat → Nat → Option (Memory × Nat)
  | 0, _, _, _ => none
  | fuel + 1, mem, pos, count =>
    match Memory.read_instruction mem pos with
    | none => none
    | some .Halt => some (mem, count)
    | some ins =>
      match Memory.add mem ins with
      | none => none
      | some mem2 => Memory.runFuelCount fuel mem2 (pos + ins.get_register_change) (count + 1)

/-- Rust `struct ParseMemoryError` from `src/intcode/mod.rs`. -/
structure ParseMemoryError : Type where
deriving DecidableEq

/-- The `for (ix, value_str) in s.trim().split(',').enumerate()` loop of
`impl FromStr for Memory`: each field is parsed (a failure is the recoverable
`ParseMemoryError`), then written by `registers[ix] = value`, which panics
(`none`) when `ix` reaches the fixed capacity 200. -/
def Memory.parseFields : List (List Char) → Nat → Memory → Option (Except ParseMemoryError Memory)
  | [], _, regs => some (.ok regs)
  | field :: rest, ix, regs =>
    match parseUsize field with
    | none => some (.error ⟨⟩)
    | some value =>
      if ix < MEMORY_SIZE then Memory.parseFields rest (ix + 1) (regs.set ix value)
      else none

/-- `impl FromStr for Memory` from `src/intcode/mod.rs`: start from
`[0; MEMORY_SIZE]` and fill it from the comma-separated fields of the trimmed
input. -/
def Memory.fromStr (s : String) : Option (Except ParseMemoryError Memory) :=
  Memory.parseFields (splitComma (trimChars s.data)) 0 (List.replicate MEMORY_SIZE 0)

end Intcode

namespace Day02

/-- Rust `IntCodeInstruction` enum from `src/bin/02.rs`. -/
inductive IntCodeInstruction where
  | Add : Nat → Nat → Nat → IntCodeInstruction
  | Multiply : Nat → Nat → Nat → IntCodeInstruction
  | Halt : IntCodeInstruction
deriving DecidableEq

/-- Rust `const INTCODE_MEMORY_SIZE: usize = 130` from `src/bin/02.rs`. -/
abbrev INTCODE_MEMORY_SIZE : Nat := 130

/-- Rust `struct IntCodeProgram` from `src/bin/02.rs`.  `registers` models the
fixed array `[usize; INTCODE_MEMORY_SIZE]`; theorems carry the length-130
invariant that the Rust array type enforces. -/
structure IntCodeProgram where
  registers : List Nat
  position : Nat
  terminated : Bool
deriving DecidableEq

/-- `IntCodeInstruction::get_output_position` from `src/bin/02.rs`. -/
def IntCodeInstruction.get_output_position : IntCodeInstruction → Option Nat
  | .Add _ _ x => some x
  | .Multiply _ _ x => some x
  | .Halt => none

/-- `IntCodeInstruction::get_position_change` from `src/bin/02.rs`. -/
def IntCodeInstruction.get_position_change : IntCodeInstruction → Nat
  | .Halt => 0
  | _ => 4

/-- `IntCodeProgram::new` from `src/bin/02.rs`: zero-filled registers with a
`99` written at address 0. -/
def IntCodeProgram.new : IntCodeProgram :=
  ⟨(List.replicate INTCODE_MEMORY_SIZE 0).set 0 99, 0, false⟩

/-- `IntCodeProgram::read_register` from `src/bin/02.rs`: the guard here is
`pos >= INTCODE_MEMORY_SIZE`, so the array index in the `else` branch is always
in bounds and the function is total. -/
def IntCodeProgram.read_register (p : IntCodeProgram) (pos : Nat) : Nat :=
  if pos ≥ INTCODE_MEMORY_SIZE then 0 else p.registers.getD pos 0

/-- `IntCodeInstruction::get_output_value` from `src/bin/02.rs`; total because
the reads go through the safe `IntCodeProgram::read_register`. -/
def IntCodeInstruction.get_output_value (i : IntCodeInstruction) (p : IntCodeProgram) : Nat :=
  match i with
  | .Add a b _ => p.read_register a + p.read_register b
  | .Multiply a b _ => p.read_register a * p.read_register b
  | .Halt => 0

/-- `IntCodeProgram::read_instruction` from `src/bin/02.rs`: opcode `1` decodes
to `Add`, `2` to `Multiply`, anything else to `Halt`; total. -/
def IntCodeProgram.read_instruction (p : IntCodeProgram) (pos : Nat) : IntCodeInstruction :=
  match p.read_register pos with
  | 1 => .Add (p.read_register (pos + 1)) (p.read_register (pos + 2)) (p.read_register (pos + 3))
  | 2 => .Multiply (p.read_register (pos + 1)) (p.read_register (pos + 2)) (p.read_register (pos + 3))
  | _ => .Halt

/-- `IntCodeProgram::step` from `src/bin/02.rs`: decode at the current
position; when the instruction has an output position, the raw index write
`self.registers[pos] = instruction.get_output_value(self)` panics (`none`) for
an out-of-capacity destination; then advance the position and set the
terminated flag on `Halt`. -/
def IntCodeProgram.step (p : IntCodeProgram) : Option IntCodeProgram :=
  let instruction := p.read_instruction p.position
  let regs? : Option (List Nat) :=
    match instruction.get_output_position with
    | none => some p.registers
    | some pos =>
      if pos < INTCODE_MEMORY_SIZE then
        some (p.registers.set pos (instruction.get_output_value p))
      else none
  match regs? with
  | none => none
  | some regs =>
    some ⟨regs, p.position + instruction.get_position_change,
      match instruction with
      | .Halt => true
      | _ => p.terminated⟩

/-- `IntCodeProgram::run` from `src/bin/02.rs`: `while !self.terminated`
repeatedly invoke `step`; the unbounded loop is given explicit fuel, `none`
meaning a panic inside `step` or insufficient fuel. -/
def IntCodeProgram.run : Nat → IntCodeProgram → Option IntCodeProgram
  | fuel, p =>
    if p.terminated then some p
    else
      match fuel with
      | 0 => none
      | fuel' + 1 =>
        match p.step with
        | none => none
        | some p2 => IntCodeProgram.run fuel' p2

/-- The `while` loop of `IntCodeProgram::run` instrumented with a count of the
executed `step` calls; the count is a ghost observation of its iterations. -/
def IntCodeProgram.runCount : Nat → IntCodeProgram → Nat → Option (IntCodeProgram × Nat)
  | fuel, p, count =>
    if p.terminated then some (p, count)
    else
      match fuel with
      | 0 => none
      | fuel' + 1 =>
        match p.step with
        | none => none
        | some p2 => IntCodeProgram.runCount fuel' p2 (count + 1)

/-- Rust `struct ParseIntCodeProgramError` from `src/bin/02.rs`. -/
structure ParseIntCodeProgramError : Type where
deriving DecidableEq

/-- The `for (register, value_str) in s.trim().split(',').enumerate()` loop of
`impl FromStr for IntCodeProgram`: each field is parsed (a failure is the
recoverable `ParseIntCodeProgramError`), then written by
`program.registers[register] = value`, which panics (`none`) when `register`
reaches the fixed capacity 130. -/
def IntCodeProgram.parseFields :
    List (List Char) → Nat → List Nat → Option (Except ParseIntCodeProgramError (List Nat))
  | [], _, regs => some (.ok regs)
  | field :: rest, ix, regs =>
    match parseUsize field with
    | none => some (.error ⟨⟩)
    | some value =>
      if ix < INTCODE_MEMORY_SIZE then IntCodeProgram.parseFields rest (ix + 1) (regs.set ix value)
      else none

/-- `impl FromStr for IntCodeProgram` from `src/bin/02.rs`: start from
`IntCodeProgram::new()` and fill the registers from the comma-separated fields
of the trimmed input; position and the terminated flag keep their initial
values. -/
def IntCodeProgram.fromStr (s : String) : Option (Except ParseIntCodeProgramError IntCodeProgram) :=
  (IntCodeProgram.parseFields (splitComma (trimChars s.data)) 0 IntCodeProgram.new.registers).map
    (Except.map (fun regs => ⟨regs, 0, false⟩))

/-- `part_two` from `src/bin/02.rs`: the function body is literally `None`. -/
def part_two (_input : String) : Option Nat := none

/-- Modelled from the spec: the Parameter Search component
(`search(memory_template, target) -> Option<(noun, verb)>`) is absent from the
source (`part_two` is an unimplemented stub), so it is modelled from the spec
text: iterate noun over `[0, 100]` as the outer loop and verb over `[0, 100]`
as the inner loop; for each pair clone the template, write noun to address 1
and verb to address 2, run the interpreter to completion, and return the first
pair whose post-run address-0 value equals the target.  Fuel 130 is enough to
run any program to completion or panic: the position strictly grows by 4 on
every non-halting step, so at most `130 / 4 + 2` steps can occur. -/
def search (template : IntCodeProgram) (target : Nat) : Option (Nat × Nat) :=
  (List.range 101).findSome? fun noun =>
    (List.range 101).findSome? fun verb =>
      let trial : IntCodeProgram := ⟨(template.registers.set 1 noun).set 2 verb, 0, false⟩
      match IntCodeProgram.run 130 trial with
      | some final => if final.read_register 0 = target then some (noun, verb) else none
      | none => none

/-- Modelled from the spec: what `part_two` should surface per the spec —
`100 * noun + verb` for the pair found by Parameter Search against the part-two
target 19690720, or an absent result when the search space is exhausted. -/
def specPartTwo (input : String) : Option Nat :=
  match IntCodeProgram.fromStr input with
  | some (.ok template) => (search template 19690720).map fun pair => 100 * pair.1 + pair.2
  | _ => none

end Day02

/-- Decidable equality for `Except`, used to evaluate parse results on
concrete inputs. -/
instance {ε α : Type} [DecidableEq ε] [DecidableEq α] : DecidableEq (Except ε α) := fun a b =>
  match a, b with
  | .ok x, .ok y => if h : x = y then isTrue (by rw [h]) else isFalse (by simp [h])
  | .error x, .error y => if h : x = y then isTrue (by rw [h]) else isFalse (by simp [h])
  | .ok _, .error _ => isFalse (by simp)
  | .error _, .ok _ => isFalse (by simp)

/-- Zero-pad a register image on the right to capacity `n`, the initial shape
of both fixed Rust arrays after loading a program of at most `n` values. -/
def padTo (n : Nat) (vals : List Nat) : List Nat :=
  vals ++ List.replicate (n - vals.length) 0

/-- The structural correspondence between the two isomorphic Rust instruction
enums, used to state that the two decoders agree. -/
def instrOfMod : Intcode.Instruction → Day02.IntCodeInstruction
  | .Add a b c => .Add a b c
  | .Multiply a b c => .Multiply a b c
  | .Halt => .Halt

/-- The example program of the source's `02.rs` unit tests, loaded into the
130-word register file. -/
def demoProgram : Day02.IntCodeProgram :=
  ⟨padTo 130 [1, 9, 10, 3, 2, 3, 11, 0, 99, 30, 40, 50], 0, false⟩

set_option maxRecDepth 100000

theorem list_getD_set_self {l : List Nat} {i : Nat} (v : Nat) (h : i < l.length) :
    (l.set i v).getD i 0 = v := by
  simp [List.getD_eq_getElem?_getD, List.getElem?_set_self h]

theorem list_getD_set_ne {l : List Nat} {i j : Nat} (v : Nat) (h : i ≠ j) :
    (l.set i v).getD j 0 = l.getD j 0 := by
  simp [List.getD_eq_getElem?_getD, List.getElem?_set_ne h]

theorem list_get?_eq_some_getD {l : List Nat} {i : Nat} (h : i < l.length) :
    l.get? i = some (l.getD i 0) := by
  simp [List.getD_eq_getElem?_getD, List.get?_eq_getElem?, List.getElem?_eq_getElem h]

theorem list_getD_of_le {l : List Nat} {i : Nat} (h : l.length ≤ i) : l.getD i 0 = 0 := by
  simp [List.getD_eq_getElem?_getD, List.getElem?_eq_none h]

theorem padTo_length {n : Nat} {vals : List Nat} (h : vals.length ≤ n) :
    (padTo n vals).length = n := by
  simp [padTo]
  omega

theorem padTo_getD_lt {n : Nat} {vals : List Nat} {i : Nat} (h : i < vals.length) :
    (padTo n vals).getD i 0 = vals.getD i 0 := by
  simp [padTo, List.getD_eq_getElem?_getD, List.getElem?_append_left h]

theorem padTo_getD_ge {n : Nat} {vals : List Nat} {i : Nat} (h : vals.length ≤ i) :
    (padTo n vals).getD i 0 = 0 := by
  simp only [padTo, List.getD_eq_getElem?_getD, List.getElem?_append_right h,
    List.getElem?_replicate]
  split <;> rfl

theorem day02_read_register_eq_getD (p : Day02.IntCodeProgram) (pos : Nat)
    (h : pos < Day02.INTCODE_MEMORY_SIZE) : p.read_register pos = p.registers.getD pos 0 := by
  unfold Day02.IntCodeProgram.read_register
  rw [if_neg (by omega)]

theorem day02_read_register_oob (p : Day02.IntCodeProgram) (pos : Nat)
    (h : Day02.INTCODE_MEMORY_SIZE ≤ pos) : p.read_register pos = 0 := by
  unfold Day02.IntCodeProgram.read_register
  rw [if_pos h]

theorem day02_read_instruction_halt (p : Day02.IntCodeProgram) (pos : Nat)
    (h1 : p.read_register pos ≠ 1) (h2 : p.read_register pos ≠ 2) :
    p.read_instruction pos = .Halt := by
  unfold Day02.IntCodeProgram.read_instruction
  rcases hv : p.read_register pos with _ | _ | _ | v
  · rfl
  · exact absurd hv h1
  · exact absurd hv h2
  · rfl

theorem day02_step_of_halt (p : Day02.IntCodeProgram)
    (h : p.read_instruction p.position = .Halt) :
    p.step = some ⟨p.registers, p.position, true⟩ := by
  unfold Day02.IntCodeProgram.step
  rw [h]
  rfl

/-- C1: the claim says both register-read operations return 0 (without
panicking) for every address at or beyond capacity, and decoding there yields
`Halt`.  This holds for `IntCodeProgram::read_register` (guard `pos >=
INTCODE_MEMORY_SIZE`), proved here in full generality, but
`Memory::read_register` guards with the strict `pos > MEMORY_SIZE`, so at
`pos = MEMORY_SIZE = 200` the array index `self.0[200]` panics (modelled as
`none`), and decoding at address 200 panics as well; addresses strictly beyond
200 do return 0. -/
theorem c1_read_beyond_capacity :
    (∀ (p : Day02.IntCodeProgram) (pos : Nat), Day02.INTCODE_MEMORY_SIZE ≤ pos →
      p.read_register pos = 0 ∧ p.read_instruction pos = .Halt)
    ∧ Intcode.Memory.read_register (List.replicate 200 0) 200 = none
    ∧ Intcode.Memory.read_register (List.replicate 200 0) 201 = some 0
    ∧ Intcode.Memory.read_instruction (List.replicate 200 0) 200 = none := by
  refine ⟨fun p pos h => ?_, by decide, by decide, by decide⟩
  have hr : p.read_register pos = 0 := day02_read_register_oob p pos h
  exact ⟨hr, day02_read_instruction_halt p pos (by rw [hr]; decide) (by rw [hr]; decide)⟩

/-- Witness for `c1_read_beyond_capacity`: its universally quantified part at
the concrete all-zero program and address 130. -/
theorem c1_read_beyond_capacity_witness :
    (⟨List.replicate 130 0, 0, false⟩ : Day02.IntCodeProgram).read_register 130 = 0 ∧
      (⟨List.replicate 130 0, 0, false⟩ : Day02.IntCodeProgram).read_instruction 130 = .Halt :=
  c1_read_beyond_capacity.1 ⟨List.replicate 130 0, 0, false⟩ 130 (by decide)

/-- C3: stepping a non-terminated program whose current position holds opcode
99 leaves the registers and the position unchanged and sets the terminated
flag. -/
theorem c3_halt_step (p : Day02.IntCodeProgram)
    (_hterm : p.terminated = false) (h99 : p.read_register p.position = 99) :
    p.step = some ⟨p.registers, p.position, true⟩ :=
  day02_step_of_halt p
    (day02_read_instruction_halt p p.position (by rw [h99]; decide) (by rw [h99]; decide))

/-- Witness for `c3_halt_step`: the concrete program whose single cell holds
99, stepped at position 0. -/
theorem c3_halt_step_witness :
    (⟨padTo 130 [99], 0, false⟩ : Day02.IntCodeProgram).step =
      some ⟨padTo 130 [99], 0, true⟩ :=
  c3_halt_step ⟨padTo 130 [99], 0, false⟩ rfl (by decide)

/-- C4 counterexample: after parsing "1,9,10,3,2,3,11,0,99,30,40,50", one step
reaches position 4 (writing 70 to address 3), and a second consecutive step
from there writes 70 * 50 = 3500 — not 150 — to address 0.  The reference
value 150 arises only when the multiply step runs on a freshly parsed program
whose position is set to 4, as the source's `test_multiply_step` does. -/
theorem c4_counterexample :
    ((Day02.IntCodeProgram.fromStr "1,9,10,3,2,3,11,0,99,30,40,50").bind fun e =>
      match e with
      | .ok p => p.step.bind fun p1 =>
          p1.step.map fun p2 => (p1.position, p2.position, p2.read_register 0)
      | .error _ => none) = some (4, 8, 3500) := by
  decide

/-- C4 amended: stepping the parsed program once yields position 4, not
terminated, address 3 updated to 70; and one step of a freshly parsed program
whose position is set to 4 yields position 8 with address 0 updated to 150. -/
theorem c4_steps :
    ((Day02.IntCodeProgram.fromStr "1,9,10,3,2,3,11,0,99,30,40,50").bind fun e =>
      match e with
      | .ok p => p.step.bind fun p1 =>
          (Day02.IntCodeProgram.step ⟨p.registers, 4, false⟩).map fun p2 =>
            (p1.position, p1.terminated, p1.registers.getD 3 0, p2.position, p2.read_register 0)
      | .error _ => none) = some (4, false, 70, 8, 150) := by
  decide

/-- C5: both implementations run the parsed example program to completion
within finite fuel (3 loop iterations), and the final value at address 0 is
3500. -/
theorem c5_full_run :
    (((Day02.IntCodeProgram.fromStr "1,9,10,3,2,3,11,0,99,30,40,50").bind fun e =>
      match e with
      | .ok p => (Day02.IntCodeProgram.run 3 p).map fun q => (q.terminated, q.read_register 0)
      | .error _ => none) = some (true, 3500))
    ∧ (((Intcode.Memory.fromStr "1,9,10,3,2,3,11,0,99,30,40,50").bind fun e =>
      match e with
      | .ok mem =>
        match Intcode.Memory.run 3 mem with
        | .halted w => some (w.getD 0 0)
        | _ => none
      | .error _ => none) = some 3500) := by
  exact ⟨by decide, by decide⟩

/-- C6: `part_two` in the source is an unimplemented stub that always returns
`None`, while the spec's Parameter Search applied to the program "19690720"
(whose post-run address 0 equals the part-two target for every noun/verb pair)
finds the first pair (0, 0) and would surface 100 * 0 + 0 = 0. -/
theorem c6_part_two_stub :
    Day02.part_two "19690720" = none ∧ Day02.specPartTwo "19690720" = some 0 :=
  ⟨rfl, by decide⟩

/-- C2: the decode mapping (1 to `Add` with operands read from the three
following addresses, 2 to `Multiply`, anything else to `Halt`) holds in full
generality for `IntCodeProgram::read_instruction`, which is total.  The claim
that decoding "is total and never fails" is false for
`Memory::read_instruction` of mod.rs: decoding at address 200 panics on the
opcode read, and decoding at address 197 with opcode 1 panics reading the
operand at address 200 (both through the off-by-one guard of
`Memory::read_register`). -/
theorem c2_decode :
    (∀ (p : Day02.IntCodeProgram) (pos : Nat),
      (p.read_register pos = 1 →
        p.read_instruction pos =
          .Add (p.read_register (pos + 1)) (p.read_register (pos + 2))
            (p.read_register (pos + 3))) ∧
      (p.read_register pos = 2 →
        p.read_instruction pos =
          .Multiply (p.read_register (pos + 1)) (p.read_register (pos + 2))
            (p.read_register (pos + 3))) ∧
      (p.read_register pos ≠ 1 → p.read_register pos ≠ 2 →
        p.read_instruction pos = .Halt))
    ∧ Intcode.Memory.read_instruction ((List.replicate 200 0).set 197 1) 197 = none
    ∧ Intcode.Memory.read_instruction (List.replicate 200 0) 200 = none := by
  refine ⟨fun p pos => ⟨fun h1 => ?_, fun h2 => ?_, day02_read_instruction_halt p pos⟩,
    by decide, by decide⟩
  · unfold Day02.IntCodeProgram.read_instruction
    rw [h1]
  · unfold Day02.IntCodeProgram.read_instruction
    rw [h2]

/-- Witness for `c2_decode`: its three decode branches at concrete positions
of the example program (opcode 1 at 0, opcode 2 at 4, opcode 99 at 8). -/
theorem c2_decode_witness :
    demoProgram.read_instruction 0 =
      .Add (demoProgram.read_register 1) (demoProgram.read_register 2)
        (demoProgram.read_register 3)
    ∧ demoProgram.read_instruction 4 =
      .Multiply (demoProgram.read_register 5) (demoProgram.read_register 6)
        (demoProgram.read_register 7)
    ∧ demoProgram.read_instruction 8 = .Halt :=
  ⟨(c2_decode.1 demoProgram 0).1 (by decide), (c2_decode.1 demoProgram 4).2.1 (by decide),
    (c2_decode.1 demoProgram 8).2.2 (by decide) (by decide)⟩

theorem day02_step_add_lt (p : Day02.IntCodeProgram) (a b d : Nat)
    (h : p.read_instruction p.position = .Add a b d) (hd : d < Day02.INTCODE_MEMORY_SIZE) :
    p.step = some ⟨p.registers.set d (p.read_register a + p.read_register b),
      p.position + 4, p.terminated⟩ := by
  unfold Day02.IntCodeProgram.step
  rw [h]
  simp only [Day02.IntCodeInstruction.get_output_position,
    Day02.IntCodeInstruction.get_output_value, Day02.IntCodeInstruction.get_position_change,
    if_pos hd]

theorem day02_step_add_ge (p : Day02.IntCodeProgram) (a b d : Nat)
    (h : p.read_instruction p.position = .Add a b d) (hd : ¬ d < Day02.INTCODE_MEMORY_SIZE) :
    p.step = none := by
  unfold Day02.IntCodeProgram.step
  rw [h]
  simp only [Day02.IntCodeInstruction.get_output_position, if_neg hd]

theorem day02_step_mul_lt (p : Day02.IntCodeProgram) (a b d : Nat)
    (h : p.read_instruction p.position = .Multiply a b d) (hd : d < Day02.INTCODE_MEMORY_SIZE) :
    p.step = some ⟨p.registers.set d (p.read_register a * p.read_register b),
      p.position + 4, p.terminated⟩ := by
  unfold Day02.IntCodeProgram.step
  rw [h]
  simp only [Day02.IntCodeInstruction.get_output_position,
    Day02.IntCodeInstruction.get_output_value, Day02.IntCodeInstruction.get_position_change,
    if_pos hd]

theorem day02_step_mul_ge (p : Day02.IntCodeProgram) (a b d : Nat)
    (h : p.read_instruction p.position = .Multiply a b d) (hd : ¬ d < Day02.INTCODE_MEMORY_SIZE) :
    p.step = none := by
  unfold Day02.IntCodeProgram.step
  rw [h]
  simp only [Day02.IntCodeInstruction.get_output_position, if_neg hd]

theorem intcode_add_halt (mem : Intcode.Memory) : Intcode.Memory.add mem .Halt = some mem := rfl

theorem intcode_add_add_eq (mem : Intcode.Memory) (a b d : Nat) :
    Intcode.Memory.add mem (.Add a b d) =
      (Intcode.Instruction.get_output_value (.Add a b d) mem).bind
        (fun value => if d < mem.length then some (mem.set d value) else none) := rfl

theorem intcode_add_mul_eq (mem : Intcode.Memory) (a b d : Nat) :
    Intcode.Memory.add mem (.Multiply a b d) =
      (Intcode.Instruction.get_output_value (.Multiply a b d) mem).bind
        (fun value => if d < mem.length then some (mem.set d value) else none) := rfl

/-- C10: executing one decoded instruction changes at most the destination
register.  For the value-semantics `Memory + Instruction` of mod.rs and the
mutating `IntCodeProgram::step` of 02.rs alike, whenever execution completes
(which entails the destination is in capacity), every register whose address
is not the instruction's output register keeps its prior value; `Halt` has no
output register, so it changes no register at all. -/
theorem c10_frame :
    (∀ (mem : Intcode.Memory) (ins : Intcode.Instruction) (mem2 : Intcode.Memory),
      Intcode.Memory.add mem ins = some mem2 →
      ∀ i : Nat, ins.get_output_register ≠ some i → mem2.getD i 0 = mem.getD i 0)
    ∧ (∀ (p p2 : Day02.IntCodeProgram), p.step = some p2 →
      ∀ i : Nat, (p.read_instruction p.position).get_output_position ≠ some i →
        p2.registers.getD i 0 = p.registers.getD i 0) := by
  constructor
  · intro mem ins mem2 hadd i hi
    cases ins with
    | Halt =>
      rw [intcode_add_halt] at hadd
      rw [← Option.some.inj hadd]
    | Add a b d =>
      rw [intcode_add_add_eq, Option.bind_eq_some'] at hadd
      obtain ⟨v, _, hite⟩ := hadd
      by_cases hd : d < mem.length
      · rw [if_pos hd] at hite
        rw [← Option.some.inj hite]
        exact list_getD_set_ne v fun h => hi (by rw [← h]; rfl)
      · rw [if_neg hd] at hite
        exact Option.noConfusion hite
    | Multiply a b d =>
      rw [intcode_add_mul_eq, Option.bind_eq_some'] at hadd
      obtain ⟨v, _, hite⟩ := hadd
      by_cases hd : d < mem.length
      · rw [if_pos hd] at hite
        rw [← Option.some.inj hite]
        exact list_getD_set_ne v fun h => hi (by rw [← h]; rfl)
      · rw [if_neg hd] at hite
        exact Option.noConfusion hite
  · intro p p2 hstep i hi
    cases hins : p.read_instruction p.position with
    | Halt =>
      rw [day02_step_of_halt p hins] at hstep
      rw [← Option.some.inj hstep]
    | Add a b d =>
      by_cases hd : d < Day02.INTCODE_MEMORY_SIZE
      · rw [day02_step_add_lt p a b d hins hd] at hstep
        rw [← Option.some.inj hstep]
        exact list_getD_set_ne _ fun h => hi (by rw [hins, ← h]; rfl)
      · rw [day02_step_add_ge p a b d hins hd] at hstep
        exact Option.noConfusion hstep
    | Multiply a b d =>
      by_cases hd : d < Day02.INTCODE_MEMORY_SIZE
      · rw [day02_step_mul_lt p a b d hins hd] at hstep
        rw [← Option.some.inj hstep]
        exact list_getD_set_ne _ fun h => hi (by rw [hins, ← h]; rfl)
      · rw [day02_step_mul_ge p a b d hins hd] at hstep
        exact Option.noConfusion hstep

/-- Witness for `c10_frame`: both halves applied to the example program's add
instruction (destination 3) at address 0, and to the example step of
`demoProgram` whose decoded instruction writes destination 3. -/
theorem c10_frame_witness :
    (padTo 200 [1, 9, 10, 19, 2, 3, 11, 0, 99, 30, 40, 50]).getD 0 0 =
      (padTo 200 [1, 9, 10, 3, 2, 3, 11, 0, 99, 30, 40, 50]).getD 0 0
    ∧ (padTo 130 [1, 9, 10, 70, 2, 3, 11, 0, 99, 30, 40, 50]).getD 0 0 =
      demoProgram.registers.getD 0 0 :=
  ⟨c10_frame.1 (padTo 200 [1, 9, 10, 3, 2, 3, 11, 0, 99, 30, 40, 50]) (.Add 1 2 3)
      (padTo 200 [1, 9, 10, 19, 2, 3, 11, 0, 99, 30, 40, 50]) (by decide) 0 (by decide),
    c10_frame.2 demoProgram
      ⟨padTo 130 [1, 9, 10, 70, 2, 3, 11, 0, 99, 30, 40, 50], 4, false⟩ (by decide) 0 (by decide)⟩

theorem intcode_runFuelCount_det :
    ∀ (f1 f2 : Nat) (mem : Intcode.Memory) (pos count : Nat) (x y : Intcode.Memory × Nat),
      Intcode.Memory.runFuelCount f1 mem pos count = some x →
      Intcode.Memory.runFuelCount f2 mem pos count = some y → x = y := by
  intro f1
  induction f1 with
  | zero => intro f2 mem pos count x y hx _; exact Option.noConfusion hx
  | succ f ih =>
    intro f2 mem pos count x y hx hy
    cases f2 with
    | zero => exact Option.noConfusion hy
    | succ g =>
      cases hins : Intcode.Memory.read_instruction mem pos with
      | none =>
        have hx2 : (match Intcode.Memory.read_instruction mem pos with
          | none => (none : Option (Intcode.Memory × Nat))
          | some .Halt => some (mem, count)
          | some ins =>
            match Intcode.Memory.add mem ins with
            | none => none
            | some mem2 =>
              Intcode.Memory.runFuelCount f mem2 (pos + ins.get_register_change)
                (count + 1)) = some x := hx
        rw [hins] at hx2
        exact Option.noConfusion hx2
      | some ins =>
        have hx2 : (match Intcode.Memory.read_instruction mem pos with
          | none => (none : Option (Intcode.Memory × Nat))
          | some .Halt => some (mem, count)
          | some ins =>
            match Intcode.Memory.add mem ins with
            | none => none
            | some mem2 =>
              Intcode.Memory.runFuelCount f mem2 (pos + ins.get_register_change)
                (count + 1)) = some x := hx
        have hy2 : (match Intcode.Memory.read_instruction mem pos with
          | none => (none : Option (Intcode.Memory × Nat))
          | some .Halt => some (mem, count)
          | some ins =>
            match Intcode.Memory.add mem ins with
            | none => none
            | some mem2 =>
              Intcode.Memory.runFuelCount g mem2 (pos + ins.get_register_change)
                (count + 1)) = some y := hy
        rw [hins] at hx2 hy2
        cases ins with
        | Halt => rw [← Option.some.inj hx2, ← Option.some.inj hy2]
        | Add a b c =>
          have hx3 : (match Intcode.Memory.add mem (.Add a b c) with
            | none => (none : Option (Intcode.Memory × Nat))
            | some mem2 => Intcode.Memory.runFuelCount f mem2 (pos + 4) (count + 1)) =
              some x := hx2
          have hy3 : (match Intcode.Memory.add mem (.Add a b c) with
            | none => (none : Option (Intcode.Memory × Nat))
            | some mem2 => Intcode.Memory.runFuelCount g mem2 (pos + 4) (count + 1)) =
              some y := hy2
          cases hadd : Intcode.Memory.add mem (.Add a b c) with
          | none => rw [hadd] at hx3; exact Option.noConfusion hx3
          | some mem2 =>
            rw [hadd] at hx3 hy3
            exact ih g mem2 (pos + 4) (count + 1) x y hx3 hy3
        | Multiply a b c =>
          have hx3 : (match Intcode.Memory.add mem (.Multiply a b c) with
            | none => (none : Option (Intcode.Memory × Nat))
            | some mem2 => Intcode.Memory.runFuelCount f mem2 (pos + 4) (count + 1)) =
              some x := hx2
          have hy3 : (match Intcode.Memory.add mem (.Multiply a b c) with
            | none => (none : Option (Intcode.Memory × Nat))
            | some mem2 => Intcode.Memory.runFuelCount g mem2 (pos + 4) (count + 1)) =
              some y := hy2
          cases hadd : Intcode.Memory.add mem (.Multiply a b c) with
          | none => rw [hadd] at hx3; exact Option.noConfusion hx3
          | some mem2 =>
            rw [hadd] at hx3 hy3
            exact ih g mem2 (pos + 4) (count + 1) x y hx3 hy3

theorem day02_runCount_terminated (fuel : Nat) (p : Day02.IntCodeProgram) (count : Nat)
    (ht : p.terminated = true) :
    Day02.IntCodeProgram.runCount fuel p count = some (p, count) := by
  unfold Day02.IntCodeProgram.runCount
  rw [if_pos ht]

theorem day02_runCount_det :
    ∀ (f1 f2 : Nat) (p : Day02.IntCodeProgram) (count : Nat) (x y : Day02.IntCodeProgram × Nat),
      Day02.IntCodeProgram.runCount f1 p count = some x →
      Day02.IntCodeProgram.runCount f2 p count = some y → x = y := by
  intro f1
  induction f1 with
  | zero =>
    intro f2 p count x y hx hy
    by_cases ht : p.terminated
    · rw [day02_runCount_terminated 0 p count ht] at hx
      rw [day02_runCount_terminated f2 p count ht] at hy
      rw [← Option.some.inj hx, ← Option.some.inj hy]
    · exfalso
      unfold Day02.IntCodeProgram.runCount at hx
      rw [if_neg ht] at hx
      exact Option.noConfusion hx
  | succ f ih =>
    intro f2 p count x y hx hy
    by_cases ht : p.terminated
    · rw [day02_runCount_terminated (f + 1) p count ht] at hx
      rw [day02_runCount_terminated f2 p count ht] at hy
      rw [← Option.some.inj hx, ← Option.some.inj hy]
    · cases f2 with
      | zero =>
        exfalso
        unfold Day02.IntCodeProgram.runCount at hy
        rw [if_neg ht] at hy
        exact Option.noConfusion hy
      | succ g =>
        unfold Day02.IntCodeProgram.runCount at hx hy
        rw [if_neg ht] at hx hy
        have hx2 : (match p.step with
          | none => (none : Option (Day02.IntCodeProgram × Nat))
          | some p2 => Day02.IntCodeProgram.runCount f p2 (count + 1)) = some x := hx
        have hy2 : (match p.step with
          | none => (none : Option (Day02.IntCodeProgram × Nat))
          | some p2 => Day02.IntCodeProgram.runCount g p2 (count + 1)) = some y := hy
        cases hstep : p.step with
        | none => rw [hstep] at hx2; exact Option.noConfusion hx2
        | some p2 =>
          rw [hstep] at hx2 hy2
          exact ih g p2 (count + 1) x y hx2 hy2

/-- C9: `run` is deterministic.  Two runs of the (fuel-indexed) loop from the
same initial memory at position 0 that both reach the halt state — with any
two fuel bounds — produce the same final memory and the same count of
executed instructions, for both implementations; the fuel bound is the only
parameter beyond the initial state, so identical inputs give identical
outcomes. -/
theorem c9_determinism :
    (∀ (mem : Intcode.Memory) (f1 f2 : Nat) (r1 r2 : Intcode.Memory) (c1 c2 : Nat),
      Intcode.Memory.runFuelCount f1 mem 0 0 = some (r1, c1) →
      Intcode.Memory.runFuelCount f2 mem 0 0 = some (r2, c2) →
      r1 = r2 ∧ c1 = c2)
    ∧ (∀ (p : Day02.IntCodeProgram) (f1 f2 : Nat) (q1 q2 : Day02.IntCodeProgram) (c1 c2 : Nat),
      Day02.IntCodeProgram.runCount f1 p 0 = some (q1, c1) →
      Day02.IntCodeProgram.runCount f2 p 0 = some (q2, c2) →
      q1 = q2 ∧ c1 = c2) := by
  constructor
  · intro mem f1 f2 r1 r2 c1 c2 h1 h2
    have h := intcode_runFuelCount_det f1 f2 mem 0 0 (r1, c1) (r2, c2) h1 h2
    exact ⟨congrArg Prod.fst h, congrArg Prod.snd h⟩
  · intro p f1 f2 q1 q2 c1 c2 h1 h2
    have h := day02_runCount_det f1 f2 p 0 (q1, c1) (q2, c2) h1 h2
    exact ⟨congrArg Prod.fst h, congrArg Prod.snd h⟩

/-- Witness for `c9_determinism`: both halves applied to the example program
with fuel bounds 3 and 5. -/
theorem c9_determinism_witness :
    (padTo 200 [3500, 9, 10, 70, 2, 3, 11, 0, 99, 30, 40, 50] =
      padTo 200 [3500, 9, 10, 70, 2, 3, 11, 0, 99, 30, 40, 50] ∧ (2 : Nat) = 2)
    ∧ ((⟨padTo 130 [3500, 9, 10, 70, 2, 3, 11, 0, 99, 30, 40, 50], 8, true⟩ :
        Day02.IntCodeProgram) =
      ⟨padTo 130 [3500, 9, 10, 70, 2, 3, 11, 0, 99, 30, 40, 50], 8, true⟩ ∧ (3 : Nat) = 3) :=
  ⟨c9_determinism.1 (padTo 200 [1, 9, 10, 3, 2, 3, 11, 0, 99, 30, 40, 50]) 3 5
      (padTo 200 [3500, 9, 10, 70, 2, 3, 11, 0, 99, 30, 40, 50])
      (padTo 200 [3500, 9, 10, 70, 2, 3, 11, 0, 99, 30, 40, 50]) 2 2 (by decide) (by decide),
    c9_determinism.2 demoProgram 3 5
      ⟨padTo 130 [3500, 9, 10, 70, 2, 3, 11, 0, 99, 30, 40, 50], 8, true⟩
      ⟨padTo 130 [3500, 9, 10, 70, 2, 3, 11, 0, 99, 30, 40, 50], 8, true⟩ 3 3
      (by decide) (by decide)⟩

theorem sim_read (p : Day02.IntCodeProgram) (mem : Intcode.Memory)
    (hm : mem.length = 200)
    (hag : ∀ i, i < 130 → p.registers.getD i 0 = mem.getD i 0)
    (hz : ∀ i, 130 ≤ i → mem.getD i 0 = 0)
    (a v : Nat) (hr : Intcode.Memory.read_register mem a = some v) :
    p.read_register a = v := by
  unfold Intcode.Memory.read_register at hr
  by_cases h200 : a > Intcode.MEMORY_SIZE
  · rw [if_pos h200] at hr
    have h200b : a > 200 := h200
    rw [day02_read_register_oob p a (by show (130 : Nat) ≤ a; omega), Option.some.inj hr]
  · rw [if_neg h200] at hr
    have ha : a < mem.length := by
      by_contra hc
      have hnone : mem.get? a = none := by
        rw [List.get?_eq_getElem?]
        exact List.getElem?_eq_none (by omega)
      rw [hnone] at hr
      exact Option.noConfusion hr
    rw [list_get?_eq_some_getD ha] at hr
    have hv := Option.some.inj hr
    by_cases h130 : a < 130
    · rw [day02_read_register_eq_getD p a h130, hag a h130, hv]
    · rw [day02_read_register_oob p a (by show (130 : Nat) ≤ a; omega), ← hv,
        hz a (by omega)]

theorem sim_decode (p : Day02.IntCodeProgram) (mem : Intcode.Memory)
    (hm : mem.length = 200)
    (hag : ∀ i, i < 130 → p.registers.getD i 0 = mem.getD i 0)
    (hz : ∀ i, 130 ≤ i → mem.getD i 0 = 0)
    (pos : Nat) (ins : Intcode.Instruction)
    (hd : Intcode.Memory.read_instruction mem pos = some ins) :
    p.read_instruction pos = instrOfMod ins := by
  have hd2 : (Intcode.Memory.read_register mem pos).bind (fun op =>
      match op with
      | 1 => (Intcode.Memory.read_register mem (pos + 1)).bind (fun a =>
          (Intcode.Memory.read_register mem (pos + 2)).bind (fun b =>
            (Intcode.Memory.read_register mem (pos + 3)).bind (fun c =>
              some (Intcode.Instruction.Add a b c))))
      | 2 => (Intcode.Memory.read_register mem (pos + 1)).bind (fun a =>
          (Intcode.Memory.read_register mem (pos + 2)).bind (fun b =>
            (Intcode.Memory.read_register mem (pos + 3)).bind (fun c =>
              some (Intcode.Instruction.Multiply a b c))))
      | _ => some Intcode.Instruction.Halt) = some ins := hd
  rw [Option.bind_eq_some'] at hd2
  obtain ⟨op, hop, hmatch⟩ := hd2
  have hop02 : p.read_register pos = op := sim_read p mem hm hag hz pos op hop
  rcases op with _ | _ | _ | k
  · rw [← Option.some.inj hmatch]
    exact day02_read_instruction_halt p pos (by rw [hop02]; decide) (by rw [hop02]; decide)
  · have hm2 : (Intcode.Memory.read_register mem (pos + 1)).bind (fun a =>
        (Intcode.Memory.read_register mem (pos + 2)).bind (fun b =>
          (Intcode.Memory.read_register mem (pos + 3)).bind (fun c =>
            some (Intcode.Instruction.Add a b c)))) = some ins := hmatch
    rw [Option.bind_eq_some'] at hm2
    obtain ⟨a, hra, hm3⟩ := hm2
    rw [Option.bind_eq_some'] at hm3
    obtain ⟨b, hrb, hm4⟩ := hm3
    rw [Option.bind_eq_some'] at hm4
    obtain ⟨c, hrc, hm5⟩ := hm4
    rw [← Option.some.inj hm5]
    unfold Day02.IntCodeProgram.read_instruction
    rw [hop02, sim_read p mem hm hag hz (pos + 1) a hra,
      sim_read p mem hm hag hz (pos + 2) b hrb, sim_read p mem hm hag hz (pos + 3) c hrc]
    exact rfl
  · have hm2 : (Intcode.Memory.read_register mem (pos + 1)).bind (fun a =>
        (Intcode.Memory.read_register mem (pos + 2)).bind (fun b =>
          (Intcode.Memory.read_register mem (pos + 3)).bind (fun c =>
            some (Intcode.Instruction.Multiply a b c)))) = some ins := hmatch
    rw [Option.bind_eq_some'] at hm2
    obtain ⟨a, hra, hm3⟩ := hm2
    rw [Option.bind_eq_some'] at hm3
    obtain ⟨b, hrb, hm4⟩ := hm3
    rw [Option.bind_eq_some'] at hm4
    obtain ⟨c, hrc, hm5⟩ := hm4
    rw [← Option.some.inj hm5]
    unfold Day02.IntCodeProgram.read_instruction
    rw [hop02, sim_read p mem hm hag hz (pos + 1) a hra,
      sim_read p mem hm hag hz (pos + 2) b hrb, sim_read p mem hm hag hz (pos + 3) c hrc]
    exact rfl
  · rw [← Option.some.inj hmatch]
    exact day02_read_instruction_halt p pos (by rw [hop02]; omega) (by rw [hop02]; omega)

theorem intcode_add_add_some {mem mem2 : Intcode.Memory} {a b d : Nat}
    (h : Intcode.Memory.add mem (.Add a b d) = some mem2) :
    ∃ va vb, Intcode.Memory.read_register mem a = some va ∧
      Intcode.Memory.read_register mem b = some vb ∧
      d < mem.length ∧ mem2 = mem.set d (va + vb) := by
  rw [intcode_add_add_eq] at h
  rw [Option.bind_eq_some'] at h
  obtain ⟨v, hv, hite⟩ := h
  have hv2 : (Intcode.Memory.read_register mem a).bind
      (fun va => (Intcode.Memory.read_register mem b).bind
        (fun vb => some (va + vb))) = some v := hv
  rw [Option.bind_eq_some'] at hv2
  obtain ⟨va, hva, hrest⟩ := hv2
  rw [Option.bind_eq_some'] at hrest
  obtain ⟨vb, hvb, hsum⟩ := hrest
  by_cases hd : d < mem.length
  · rw [if_pos hd] at hite
    exact ⟨va, vb, hva, hvb, hd, by rw [← Option.some.inj hite, Option.some.inj hsum]⟩
  · rw [if_neg hd] at hite
    exact Option.noConfusion hite

theorem intcode_add_mul_some {mem mem2 : Intcode.Memory} {a b d : Nat}
    (h : Intcode.Memory.add mem (.Multiply a b d) = some mem2) :
    ∃ va vb, Intcode.Memory.read_register mem a = some va ∧
      Intcode.Memory.read_register mem b = some vb ∧
      d < mem.length ∧ mem2 = mem.set d (va * vb) := by
  rw [intcode_add_mul_eq] at h
  rw [Option.bind_eq_some'] at h
  obtain ⟨v, hv, hite⟩ := h
  have hv2 : (Intcode.Memory.read_register mem a).bind
      (fun va => (Intcode.Memory.read_register mem b).bind
        (fun vb => some (va * vb))) = some v := hv
  rw [Option.bind_eq_some'] at hv2
  obtain ⟨va, hva, hrest⟩ := hv2
  rw [Option.bind_eq_some'] at hrest
  obtain ⟨vb, hvb, hsum⟩ := hrest
  by_cases hd : d < mem.length
  · rw [if_pos hd] at hite
    exact ⟨va, vb, hva, hvb, hd, by rw [← Option.some.inj hite, Option.some.inj hsum]⟩
  · rw [if_neg hd] at hite
    exact Option.noConfusion hite

theorem day02_run_terminated (fuel : Nat) (p : Day02.IntCodeProgram)
    (ht : p.terminated = true) : Day02.IntCodeProgram.run fuel p = some p := by
  unfold Day02.IntCodeProgram.run
  rw [if_pos ht]

theorem day02_run_zero (p : Day02.IntCodeProgram) (ht : p.terminated = false) :
    Day02.IntCodeProgram.run 0 p = none := by
  unfold Day02.IntCodeProgram.run
  rw [if_neg (by simp [ht])]

theorem day02_run_succ (fuel : Nat) (p : Day02.IntCodeProgram) (ht : p.terminated = false) :
    Day02.IntCodeProgram.run (fuel + 1) p =
      (match p.step with
      | none => none
      | some p2 => Day02.IntCodeProgram.run fuel p2) := by
  conv_lhs => unfold Day02.IntCodeProgram.run
  rw [if_neg (by simp [ht])]

theorem sim_run :
    ∀ (fm : Nat) (mem : Intcode.Memory) (p : Day02.IntCodeProgram),
      p.registers.length = 130 → mem.length = 200 → p.terminated = false →
      (∀ i, i < 130 → p.registers.getD i 0 = mem.getD i 0) →
      (∀ i, 130 ≤ i → mem.getD i 0 = 0) →
      ∀ (f02 : Nat) (q : Day02.IntCodeProgram), Day02.IntCodeProgram.run f02 p = some q →
      ∀ (w : Intcode.Memory), Intcode.Memory.runFuel fm mem p.position = .halted w →
      ∀ i, i < 130 → q.registers.getD i 0 = w.getD i 0 := by
  intro fm
  induction fm with
  | zero =>
    intro mem p _ _ _ _ _ f02 q _ w hw
    exact Intcode.RunOutcome.noConfusion hw
  | succ fm ih =>
    intro mem p hp hm ht hag hz f02 q hq w hw
    have hw2 : (match Intcode.Memory.read_instruction mem p.position with
      | none => Intcode.RunOutcome.panicked
      | some .Halt => Intcode.RunOutcome.halted mem
      | some ins =>
        match Intcode.Memory.add mem ins with
        | none => Intcode.RunOutcome.panicked
        | some mem2 =>
          Intcode.Memory.runFuel fm mem2 (p.position + ins.get_register_change)) =
        .halted w := hw
    cases hins : Intcode.Memory.read_instruction mem p.position with
    | none =>
      rw [hins] at hw2
      exact Intcode.RunOutcome.noConfusion hw2
    | some ins =>
      rw [hins] at hw2
      cases ins with
      | Halt =>
        have hwm : mem = w := by
          have h3 : Intcode.RunOutcome.halted mem = .halted w := hw2
          injection h3
        have hdec : p.read_instruction p.position = instrOfMod .Halt :=
          sim_decode p mem hm hag hz p.position .Halt hins
        have hstep := day02_step_of_halt p hdec
        cases f02 with
        | zero =>
          rw [day02_run_zero p ht] at hq
          exact Option.noConfusion hq
        | succ g =>
          rw [day02_run_succ g p ht, hstep] at hq
          have hq2 : Day02.IntCodeProgram.run g ⟨p.registers, p.position, true⟩ = some q := hq
          rw [day02_run_terminated g _ rfl] at hq2
          intro i hi
          rw [← Option.some.inj hq2, ← hwm]
          exact hag i hi
      | Add a b d =>
        have hw3 : (match Intcode.Memory.add mem (.Add a b d) with
          | none => Intcode.RunOutcome.panicked
          | some mem2 => Intcode.Memory.runFuel fm mem2 (p.position + 4)) = .halted w := hw2
        cases hadd : Intcode.Memory.add mem (.Add a b d) with
        | none =>
          rw [hadd] at hw3
          exact Intcode.RunOutcome.noConfusion hw3
        | some mem2 =>
          rw [hadd] at hw3
          obtain ⟨va, vb, hva, hvb, hdlen, hmem2⟩ := intcode_add_add_some hadd
          have hdec : p.read_instruction p.position = instrOfMod (.Add a b d) :=
            sim_decode p mem hm hag hz p.position (.Add a b d) hins
          by_cases hd130 : d < Day02.INTCODE_MEMORY_SIZE
          · have hstep := day02_step_add_lt p a b d hdec hd130
            rw [sim_read p mem hm hag hz a va hva, sim_read p mem hm hag hz b vb hvb, ht]
              at hstep
            cases f02 with
            | zero =>
              rw [day02_run_zero p ht] at hq
              exact Option.noConfusion hq
            | succ g =>
              rw [day02_run_succ g p ht, hstep] at hq
              have hq2 : Day02.IntCodeProgram.run g
                  ⟨p.registers.set d (va + vb), p.position + 4, false⟩ = some q := hq
              have hd130b : d < 130 := hd130
              have hag2 : ∀ i, i < 130 →
                  (p.registers.set d (va + vb)).getD i 0 = mem2.getD i 0 := by
                intro i hi
                rw [hmem2]
                by_cases hdi : d = i
                · subst hdi
                  rw [list_getD_set_self _ (by rw [hp]; exact hd130b),
                    list_getD_set_self _ hdlen]
                · rw [list_getD_set_ne _ hdi, list_getD_set_ne _ hdi]
                  exact hag i hi
              have hz2 : ∀ i, 130 ≤ i → mem2.getD i 0 = 0 := by
                intro i hi
                rw [hmem2, list_getD_set_ne _ (by omega : d ≠ i)]
                exact hz i hi
              exact ih mem2 ⟨p.registers.set d (va + vb), p.position + 4, false⟩
                (by rw [List.length_set, hp]) (by rw [hmem2, List.length_set, hm]) rfl
                hag2 hz2 g q hq2 w hw3
          · have hstepn := day02_step_add_ge p a b d hdec hd130
            exfalso
            cases f02 with
            | zero =>
              rw [day02_run_zero p ht] at hq
              exact Option.noConfusion hq
            | succ g =>
              rw [day02_run_succ g p ht, hstepn] at hq
              exact Option.noConfusion hq
      | Multiply a b d =>
        have hw3 : (match Intcode.Memory.add mem (.Multiply a b d) with
          | none => Intcode.RunOutcome.panicked
          | some mem2 => Intcode.Memory.runFuel fm mem2 (p.position + 4)) = .halted w := hw2
        cases hadd : Intcode.Memory.add mem (.Multiply a b d) with
        | none =>
          rw [hadd] at hw3
          exact Intcode.RunOutcome.noConfusion hw3
        | some mem2 =>
          rw [hadd] at hw3
          obtain ⟨va, vb, hva, hvb, hdlen, hmem2⟩ := intcode_add_mul_some hadd
          have hdec : p.read_instruction p.position = instrOfMod (.Multiply a b d) :=
            sim_decode p mem hm hag hz p.position (.Multiply a b d) hins
          by_cases hd130 : d < Day02.INTCODE_MEMORY_SIZE
          · have hstep := day02_step_mul_lt p a b d hdec hd130
            rw [sim_read p mem hm hag hz a va hva, sim_read p mem hm hag hz b vb hvb, ht]
              at hstep
            cases f02 with
            | zero =>
              rw [day02_run_zero p ht] at hq
              exact Option.noConfusion hq
            | succ g =>
              rw [day02_run_succ g p ht, hstep] at hq
              have hq2 : Day02.IntCodeProgram.run g
                  ⟨p.registers.set d (va * vb), p.position + 4, false⟩ = some q := hq
              have hd130b : d < 130 := hd130
              have hag2 : ∀ i, i < 130 →
                  (p.registers.set d (va * vb)).getD i 0 = mem2.getD i 0 := by
                intro i hi
                rw [hmem2]
                by_cases hdi : d = i
                · subst hdi
                  rw [list_getD_set_self _ (by rw [hp]; exact hd130b),
                    list_getD_set_self _ hdlen]
                · rw [list_getD_set_ne _ hdi, list_getD_set_ne _ hdi]
                  exact hag i hi
              have hz2 : ∀ i, 130 ≤ i → mem2.getD i 0 = 0 := by
                intro i hi
                rw [hmem2, list_getD_set_ne _ (by omega : d ≠ i)]
                exact hz i hi
              exact ih mem2 ⟨p.registers.set d (va * vb), p.position + 4, false⟩
                (by rw [List.length_set, hp]) (by rw [hmem2, List.length_set, hm]) rfl
                hag2 hz2 g q hq2 w hw3
          · have hstepn := day02_step_mul_ge p a b d hdec hd130
            exfalso
            cases f02 with
            | zero =>
              rw [day02_run_zero p ht] at hq
              exact Option.noConfusion hq
            | succ g =>
              rw [day02_run_succ g p ht, hstepn] at hq
              exact Option.noConfusion hq

/-- C8 counterexample: the contents [1, 200, 0, 0, 99] fit both capacities and
the in-place `IntCodeProgram::run` halts on them in two steps with the
registers unchanged (the `Add` reads address 200, whose safe read yields 0,
and rewrites address 0 with 0 + 1 = 1), yet the pure `Memory::run` of mod.rs
panics on its very first instruction: its `read_register(200)` indexes
`self.0[200]` out of bounds, so it never produces final register values at
all. -/
theorem c8_counterexample :
    Day02.IntCodeProgram.run 2 ⟨padTo 130 [1, 200, 0, 0, 99], 0, false⟩ =
      some ⟨padTo 130 [1, 200, 0, 0, 99], 4, true⟩
    ∧ Intcode.Memory.run 1 (padTo 200 [1, 200, 0, 0, 99]) = .panicked := by
  exact ⟨by decide, by decide⟩

/-- C8 amended: for every initial register contents fitting both fixed
capacities, if the in-place `IntCodeProgram::run` halts from position 0 and
the pure `Memory::run` also halts (rather than hitting the mod.rs
out-of-bounds read at address 200), the two final register files agree at
every address of the shared capacity range [0, 130). -/
theorem c8_equivalence (vals : List Nat) (hlen : vals.length ≤ 130)
    (f02 : Nat) (q : Day02.IntCodeProgram)
    (h02 : Day02.IntCodeProgram.run f02 ⟨padTo 130 vals, 0, false⟩ = some q)
    (fm : Nat) (w : Intcode.Memory)
    (hmod : Intcode.Memory.run fm (padTo 200 vals) = .halted w) :
    ∀ i, i < 130 → q.registers.getD i 0 = w.getD i 0 := by
  have hag : ∀ i, i < 130 →
      (padTo 130 vals).getD i 0 = (padTo 200 vals).getD i 0 := by
    intro i hi
    by_cases hv : i < vals.length
    · rw [padTo_getD_lt hv, padTo_getD_lt hv]
    · rw [padTo_getD_ge (by omega), padTo_getD_ge (by omega)]
  have hz : ∀ i, 130 ≤ i → (padTo 200 vals).getD i 0 = 0 := by
    intro i hi
    exact padTo_getD_ge (by omega)
  exact sim_run fm (padTo 200 vals) ⟨padTo 130 vals, 0, false⟩
    (padTo_length hlen) (padTo_length (by omega)) rfl hag hz f02 q h02 w hmod

/-- Witness for `c8_equivalence`: the example program, run to completion on
both implementations in 3 iterations, agrees at address 0 (value 3500). -/
theorem c8_equivalence_witness :
    (⟨padTo 130 [3500, 9, 10, 70, 2, 3, 11, 0, 99, 30, 40, 50], 8, true⟩ :
      Day02.IntCodeProgram).registers.getD 0 0 =
      (padTo 200 [3500, 9, 10, 70, 2, 3, 11, 0, 99, 30, 40, 50]).getD 0 0 :=
  c8_equivalence [1, 9, 10, 3, 2, 3, 11, 0, 99, 30, 40, 50] (by decide) 3
    ⟨padTo 130 [3500, 9, 10, 70, 2, 3, 11, 0, 99, 30, 40, 50], 8, true⟩ (by decide) 3
    (padTo 200 [3500, 9, 10, 70, 2, 3, 11, 0, 99, 30, 40, 50]) (by decide) 0 (by decide)

theorem day02_parseFields_cons_some (f : List Char) (rest : List (List Char)) (ix : Nat)
    (regs : List Nat) (v : Nat) (hv : parseUsize f = some v)
    (hix : ix < Day02.INTCODE_MEMORY_SIZE) :
    Day02.IntCodeProgram.parseFields (f :: rest) ix regs =
      Day02.IntCodeProgram.parseFields rest (ix + 1) (regs.set ix v) := by
  conv_lhs => unfold Day02.IntCodeProgram.parseFields
  rw [hv]
  exact if_pos hix

theorem day02_parseFields_cons_err (f : List Char) (rest : List (List Char)) (ix : Nat)
    (regs : List Nat) (hv : parseUsize f = none) :
    Day02.IntCodeProgram.parseFields (f :: rest) ix regs = some (.error ⟨⟩) := by
  unfold Day02.IntCodeProgram.parseFields
  rw [hv]

theorem intcode_parseFields_cons_some (f : List Char) (rest : List (List Char)) (ix : Nat)
    (regs : List Nat) (v : Nat) (hv : parseUsize f = some v)
    (hix : ix < Intcode.MEMORY_SIZE) :
    Intcode.Memory.parseFields (f :: rest) ix regs =
      Intcode.Memory.parseFields rest (ix + 1) (regs.set ix v) := by
  conv_lhs => unfold Intcode.Memory.parseFields
  rw [hv]
  exact if_pos hix

theorem intcode_parseFields_cons_err (f : List Char) (rest : List (List Char)) (ix : Nat)
    (regs : List Nat) (hv : parseUsize f = none) :
    Intcode.Memory.parseFields (f :: rest) ix regs = some (.error ⟨⟩) := by
  unfold Intcode.Memory.parseFields
  rw [hv]

theorem day02_parseFields_ok :
    ∀ (fields : List (List Char)) (ix : Nat) (regs : List Nat),
      regs.length = 130 →
      (∀ f ∈ fields, (parseUsize f).isSome) → ix + fields.length ≤ 130 →
      ∃ regs2, Day02.IntCodeProgram.parseFields fields ix regs = some (.ok regs2) ∧
        regs2.length = 130 ∧
        (∀ j, j < fields.length →
          regs2.getD (ix + j) 0 = (parseUsize (fields.getD j [])).getD 0) ∧
        (∀ j, j < ix → regs2.getD j 0 = regs.getD j 0) := by
  intro fields
  induction fields with
  | nil =>
    intro ix regs hlen _ _
    exact ⟨regs, rfl, hlen, fun j hj => absurd hj (by simp), fun j _ => rfl⟩
  | cons f rest ihf =>
    intro ix regs hlen hval hle
    rw [List.length_cons] at hle
    obtain ⟨v, hv⟩ := Option.isSome_iff_exists.mp (hval f (List.mem_cons_self f rest))
    have hix : ix < 130 := by omega
    obtain ⟨regs2, hrec, hlen2, hvals2, hframe2⟩ := ihf (ix + 1) (regs.set ix v)
      (by rw [List.length_set]; exact hlen)
      (fun g hg => hval g (List.mem_cons_of_mem f hg)) (by omega)
    refine ⟨regs2, ?_, hlen2, ?_, ?_⟩
    · rw [day02_parseFields_cons_some f rest ix regs v hv hix]
      exact hrec
    · intro j hj
      cases j with
      | zero =>
        have h0 : regs2.getD ix 0 = (regs.set ix v).getD ix 0 := hframe2 ix (by omega)
        have hval0 : (parseUsize ((f :: rest).getD 0 [])).getD 0 = v := by
          show (parseUsize f).getD 0 = v
          rw [hv]
          rfl
        rw [show ix + 0 = ix from by omega, h0, hval0]
        exact list_getD_set_self v (by omega)
      | succ j' =>
        rw [List.length_cons] at hj
        have := hvals2 j' (by omega)
        rw [show ix + (j' + 1) = ix + 1 + j' from by omega]
        exact this
    · intro j hj
      rw [hframe2 j (by omega)]
      exact list_getD_set_ne v (by omega)

theorem day02_parseFields_err :
    ∀ (fields : List (List Char)) (ix : Nat) (regs : List Nat) (i : Nat),
      i < fields.length → (parseUsize (fields.getD i [])).isNone →
      (∀ j, j < i → (parseUsize (fields.getD j [])).isSome) → ix + i ≤ 130 →
      Day02.IntCodeProgram.parseFields fields ix regs = some (.error ⟨⟩) := by
  intro fields
  induction fields with
  | nil => intro ix regs i hi _ _ _; exact absurd hi (by simp)
  | cons f rest ihf =>
    intro ix regs i hi hnone hprev hle
    cases i with
    | zero =>
      exact day02_parseFields_cons_err f rest ix regs (Option.isNone_iff_eq_none.mp hnone)
    | succ i2 =>
      obtain ⟨v, hv⟩ := Option.isSome_iff_exists.mp (hprev 0 (by omega))
      rw [List.length_cons] at hi
      rw [day02_parseFields_cons_some f rest ix regs v hv (by show ix < 130; omega)]
      exact ihf (ix + 1) (regs.set ix v) i2 (by omega) hnone
        (fun j hj => hprev (j + 1) (by omega)) (by omega)

theorem intcode_parseFields_ok :
    ∀ (fields : List (List Char)) (ix : Nat) (regs : List Nat),
      regs.length = 200 →
      (∀ f ∈ fields, (parseUsize f).isSome) → ix + fields.length ≤ 200 →
      ∃ regs2, Intcode.Memory.parseFields fields ix regs = some (.ok regs2) ∧
        regs2.length = 200 ∧
        (∀ j, j < fields.length →
          regs2.getD (ix + j) 0 = (parseUsize (fields.getD j [])).getD 0) ∧
        (∀ j, j < ix → regs2.getD j 0 = regs.getD j 0) := by
  intro fields
  induction fields with
  | nil =>
    intro ix regs hlen _ _
    exact ⟨regs, rfl, hlen, fun j hj => absurd hj (by simp), fun j _ => rfl⟩
  | cons f rest ihf =>
    intro ix regs hlen hval hle
    rw [List.length_cons] at hle
    obtain ⟨v, hv⟩ := Option.isSome_iff_exists.mp (hval f (List.mem_cons_self f rest))
    have hix : ix < 200 := by omega
    obtain ⟨regs2, hrec, hlen2, hvals2, hframe2⟩ := ihf (ix + 1) (regs.set ix v)
      (by rw [List.length_set]; exact hlen)
      (fun g hg => hval g (List.mem_cons_of_mem f hg)) (by omega)
    refine ⟨regs2, ?_, hlen2, ?_, ?_⟩
    · rw [intcode_parseFields_cons_some f rest ix regs v hv hix]
      exact hrec
    · intro j hj
      cases j with
      | zero =>
        have h0 : regs2.getD ix 0 = (regs.set ix v).getD ix 0 := hframe2 ix (by omega)
        have hval0 : (parseUsize ((f :: rest).getD 0 [])).getD 0 = v := by
          show (parseUsize f).getD 0 = v
          rw [hv]
          rfl
        rw [show ix + 0 = ix from by omega, h0, hval0]
        exact list_getD_set_self v (by omega)
      | succ j2 =>
        rw [List.length_cons] at hj
        have := hvals2 j2 (by omega)
        rw [show ix + (j2 + 1) = ix + 1 + j2 from by omega]
        exact this
    · intro j hj
      rw [hframe2 j (by omega)]
      exact list_getD_set_ne v (by omega)

theorem intcode_parseFields_err :
    ∀ (fields : List (List Char)) (ix : Nat) (regs : List Nat) (i : Nat),
      i < fields.length → (parseUsize (fields.getD i [])).isNone →
      (∀ j, j < i → (parseUsize (fields.getD j [])).isSome) → ix + i ≤ 200 →
      Intcode.Memory.parseFields fields ix regs = some (.error ⟨⟩) := by
  intro fields
  induction fields with
  | nil => intro ix regs i hi _ _ _; exact absurd hi (by simp)
  | cons f rest ihf =>
    intro ix regs i hi hnone hprev hle
    cases i with
    | zero =>
      exact intcode_parseFields_cons_err f rest ix regs (Option.isNone_iff_eq_none.mp hnone)
    | succ i2 =>
      obtain ⟨v, hv⟩ := Option.isSome_iff_exists.mp (hprev 0 (by omega))
      rw [List.length_cons] at hi
      rw [intcode_parseFields_cons_some f rest ix regs v hv (by show ix < 200; omega)]
      exact ihf (ix + 1) (regs.set ix v) i2 (by omega) hnone
        (fun j hj => hprev (j + 1) (by omega)) (by omega)

/-- C7 amended: parsing splits the trimmed input on commas; when every field
is a valid non-negative 64-bit integer and the field count fits the capacity,
parsing succeeds with the field values written to addresses 0, 1, 2, … in
order (position 0 and the terminated flag clear for `IntCodeProgram`); and
parsing returns the typed `ParseError` whenever the first invalid field sits
at an index no greater than the capacity, so that the loop reaches it before
any out-of-capacity write.  (An invalid field beyond that point is not reached:
the write of the preceding field panics first — see the counterexample.) -/
theorem c7_parse :
    ∀ (s : String) (fields : List (List Char)), fields = splitComma (trimChars s.data) →
      ((∀ f ∈ fields, (parseUsize f).isSome) → fields.length ≤ 130 →
        ∃ p : Day02.IntCodeProgram, Day02.IntCodeProgram.fromStr s = some (.ok p) ∧
          p.position = 0 ∧ p.terminated = false ∧ p.registers.length = 130 ∧
          ∀ j, j < fields.length →
            p.registers.getD j 0 = (parseUsize (fields.getD j [])).getD 0)
      ∧ (∀ i, i < fields.length → (parseUsize (fields.getD i [])).isNone →
          (∀ j, j < i → (parseUsize (fields.getD j [])).isSome) → i ≤ 130 →
          Day02.IntCodeProgram.fromStr s = some (.error ⟨⟩))
      ∧ ((∀ f ∈ fields, (parseUsize f).isSome) → fields.length ≤ 200 →
        ∃ m : Intcode.Memory, Intcode.Memory.fromStr s = some (.ok m) ∧
          m.length = 200 ∧
          ∀ j, j < fields.length → m.getD j 0 = (parseUsize (fields.getD j [])).getD 0)
      ∧ (∀ i, i < fields.length → (parseUsize (fields.getD i [])).isNone →
          (∀ j, j < i → (parseUsize (fields.getD j [])).isSome) → i ≤ 200 →
          Intcode.Memory.fromStr s = some (.error ⟨⟩)) := by
  intro s fields hf
  refine ⟨fun hval hlen => ?_, fun i hi hnone hprev hle => ?_,
    fun hval hlen => ?_, fun i hi hnone hprev hle => ?_⟩
  · obtain ⟨regs2, hrec, hlen2, hvals2, _⟩ :=
      day02_parseFields_ok fields 0 Day02.IntCodeProgram.new.registers
        (by simp [Day02.IntCodeProgram.new]) hval (by omega)
    refine ⟨⟨regs2, 0, false⟩, ?_, rfl, rfl, hlen2, ?_⟩
    · unfold Day02.IntCodeProgram.fromStr
      rw [← hf, hrec]
      rfl
    · intro j hj
      have := hvals2 j hj
      rwa [Nat.zero_add] at this
  · unfold Day02.IntCodeProgram.fromStr
    rw [← hf, day02_parseFields_err fields 0 Day02.IntCodeProgram.new.registers i hi hnone
      hprev (by omega)]
    rfl
  · obtain ⟨regs2, hrec, hlen2, hvals2, _⟩ :=
      intcode_parseFields_ok fields 0 (List.replicate Intcode.MEMORY_SIZE 0)
        (by simp) hval (by omega)
    refine ⟨regs2, ?_, hlen2, ?_⟩
    · unfold Intcode.Memory.fromStr
      rw [← hf]
      exact hrec
    · intro j hj
      have := hvals2 j hj
      rwa [Nat.zero_add] at this
  · unfold Intcode.Memory.fromStr
    rw [← hf]
    exact intcode_parseFields_err fields 0 (List.replicate Intcode.MEMORY_SIZE 0) i hi hnone
      hprev (by omega)

/-- C7 counterexample: an input of 131 valid fields followed by the invalid
field "x".  Parsing does not return the typed `ParseError` the claim promises
for any input with an invalid field: the write of the 131st field (index 130)
panics on the fixed 130-word array before the invalid field is ever reached,
so the result is a panic (`none`), not `some (Except.error _)`. -/
theorem c7_counterexample :
    Day02.IntCodeProgram.fromStr (String.intercalate "," (List.replicate 131 "0") ++ ",x") =
      none := by
  decide

/-- Witness for `c7_parse`: all four branches at the concrete inputs "1,2"
(both parses succeed) and "1,x" (both parses report the typed error on the
invalid second field). -/
theorem c7_parse_witness :
    (∃ p : Day02.IntCodeProgram, Day02.IntCodeProgram.fromStr "1,2" = some (.ok p) ∧
      p.position = 0 ∧ p.terminated = false ∧ p.registers.length = 130 ∧
      ∀ j, j < (splitComma (trimChars ("1,2" : String).data)).length →
        p.registers.getD j 0 =
          (parseUsize ((splitComma (trimChars ("1,2" : String).data)).getD j [])).getD 0)
    ∧ Day02.IntCodeProgram.fromStr "1,x" = some (.error ⟨⟩)
    ∧ (∃ m : Intcode.Memory, Intcode.Memory.fromStr "1,2" = some (.ok m) ∧
      m.length = 200 ∧
      ∀ j, j < (splitComma (trimChars ("1,2" : String).data)).length →
        m.getD j 0 =
          (parseUsize ((splitComma (trimChars ("1,2" : String).data)).getD j [])).getD 0)
    ∧ Intcode.Memory.fromStr "1,x" = some (.error ⟨⟩) :=
  ⟨(c7_parse "1,2" (splitComma (trimChars ("1,2" : String).data)) rfl).1
      (by decide) (by decide),
    (c7_parse "1,x" (splitComma (trimChars ("1,x" : String).data)) rfl).2.1 1
      (by decide) (by decide)
      (by intro j hj; cases j with | zero => decide | succ n => omega) (by decide),
    (c7_parse "1,2" (splitComma (trimChars ("1,2" : String).data)) rfl).2.2.1
      (by decide) (by decide),
    (c7_parse "1,x" (splitComma (trimChars ("1,x" : String).data)) rfl).2.2.2 1
      (by decide) (by decide)
      (by intro j hj; cases j with | zero => decide | succ n => omega) (by decide)⟩
